import Mathlib

/-
Shallow embedding of the repository's GitHub Action scripts:

  .github/actions/sta-import-zip/sta-import-zip.js
  .github/actions/sta-mountpoint/sta-mountpoint.js
  .github/actions/sta-xwalk-upload/sta-xwalk-upload.js

JS strings are modelled as `List Char` (a JS string is a sequence of code
units; all inputs of interest here are plain text).  JS `Array` becomes
`List`, fallible code returns `Except`/`Option`, and the effectful pipeline
steps are modelled as pure state-passing functions over explicit event
traces and an explicit file-system abstraction (a list of paths).
-/

namespace Sta

/-- JS whitespace class, the regex character class \s (ECMA-262 WhiteSpace
and LineTerminator code points). -/
def isJsSpace (c : Char) : Bool :=
  c == ' ' || c == '\t' || c == '\n' || c == '\r' ||
  c.val == 0xb || c.val == 0xc ||
  c.val == 0xa0 || c.val == 0x1680 ||
  (0x2000 ≤ c.val && c.val ≤ 0x200a) ||
  c.val == 0x2028 || c.val == 0x2029 || c.val == 0x202f ||
  c.val == 0x205f || c.val == 0x3000 || c.val == 0xfeff

/-- Strip an expected literal from the front of the input; `none` when the
input does not start with the literal. -/
def stripLit : List Char → List Char → Option (List Char)
  | [], cs => some cs
  | _ :: _, [] => none
  | l :: ls, c :: cs => if c == l then stripLit ls cs else none

/-- Matcher for the JS regex /^\s*<filter\s+root="([^"]+)"><\/filter>\s*$/
used by getFilterPathsSimple in sta-import-zip.js; returns the capture
group on a match.  Every quantified class in the regex is disjoint from
the literal that follows it, so the greedy scan below is exact. -/
def matchFilterLine (line : List Char) : Option (List Char) :=
  let s0 := line.dropWhile isJsSpace
  match stripLit "<filter".toList s0 with
  | none => none
  | some s1 =>
    match s1 with
    | [] => none
    | c :: rest =>
      if isJsSpace c then
        let s2 := rest.dropWhile isJsSpace
        match stripLit "root=\"".toList s2 with
        | none => none
        | some s3 =>
          let content := s3.takeWhile (fun d => !(d == '"'))
          let s4 := s3.dropWhile (fun d => !(d == '"'))
          if content.isEmpty then none
          else
            match stripLit "\"></filter>".toList s4 with
            | none => none
            | some s5 =>
              if (s5.dropWhile isJsSpace).isEmpty then some content else none
      else none

/-- Splitting on a single separator character, as JS String.split with a
one-character separator: accumulator-based scan. -/
def splitCharGo (sep : Char) : List Char → List Char → List (List Char)
  | [], acc => [acc.reverse]
  | c :: cs, acc =>
    if c == sep then acc.reverse :: splitCharGo sep cs []
    else splitCharGo sep cs (c :: acc)

/-- JS `s.split(sep)` for a one-character separator. -/
def splitChar (sep : Char) (s : List Char) : List (List Char) :=
  splitCharGo sep s []

/-- Loop body of getFilterPathsSimple: walk the lines, pushing each capture
onto the result array. -/
def getFilterPathsGo : List (List Char) → List (List Char) → List (List Char)
  | [], acc => acc
  | l :: ls, acc =>
    match matchFilterLine l with
    | some p => getFilterPathsGo ls (acc ++ [p])
    | none => getFilterPathsGo ls acc

/-- getFilterPathsSimple from sta-import-zip.js: split the manifest text on
newlines and collect the capture of every line matching the filter regex. -/
def getFilterPathsSimple (xmlString : List Char) : List (List Char) :=
  getFilterPathsGo (splitChar '\n' xmlString) []

theorem getFilterPathsGo_eq (ls : List (List Char)) (acc : List (List Char)) :
    getFilterPathsGo ls acc = acc ++ ls.filterMap matchFilterLine := by
  induction ls generalizing acc with
  | nil => simp [getFilterPathsGo]
  | cons l ls ih =>
    cases h : matchFilterLine l with
    | none => simp [getFilterPathsGo, h, ih]
    | some p => simp [getFilterPathsGo, h, ih]

theorem filterMap_length_countP (f : List Char → Option (List Char))
    (ls : List (List Char)) :
    (ls.filterMap f).length = ls.countP (fun l => (f l).isSome) := by
  induction ls with
  | nil => simp
  | cons l ls ih =>
    cases h : f l with
    | none => simp [List.filterMap_cons, h, List.countP_cons, ih]
    | some p => simp [List.filterMap_cons, h, List.countP_cons, ih]

/-- C3: the manifest scanner returns one path per line matching the
single-line filter pattern, in line order with duplicates preserved
(it is exactly the filterMap of the line matcher over the split lines,
so its length is the number of matching lines), and on the concrete
manifest text from the spec it returns the two expected paths. -/
theorem filter_paths_line_scan (xmlString : List Char) :
    getFilterPathsSimple xmlString
      = (splitChar '\n' xmlString).filterMap matchFilterLine ∧
    (getFilterPathsSimple xmlString).length
      = (splitChar '\n' xmlString).countP (fun l => (matchFilterLine l).isSome) ∧
    getFilterPathsSimple
        "<filter root=\"/content/foo\"></filter>\nnot a filter\n<filter root=\"/content/bar\"></filter>".toList
      = ["/content/foo".toList, "/content/bar".toList] := by
  refine ⟨?_, ?_, ?_⟩
  · simp [getFilterPathsSimple, getFilterPathsGo_eq]
  · simp [getFilterPathsSimple, getFilterPathsGo_eq, filterMap_length_countP]
  · rfl

/-- Lowercasing of a JS string (String.prototype.toLowerCase on the ASCII
range relevant to the '.zip' suffix check). -/
def jsToLower (p : List Char) : List Char := p.map Char.toLower

/-- Test from sta-import-zip.js line 102:
entry.path.toLowerCase().endsWith('.zip'). -/
def endsWithZip (p : List Char) : Bool :=
  List.isSuffixOf ".zip".toList (jsToLower p)

/-- Zip central-directory entry as surfaced by the unzipper library:
a relative path and whether entry.type is 'Directory'. -/
structure ZEntry where
  path : List Char
  isDirectory : Bool
deriving DecidableEq, Repr

/-- Node path.join for the joins performed by extractZip (no '..'
normalization is modelled; none of the settled claims depends on it). -/
def pathJoin (a b : List Char) : List Char := a ++ '/' :: b

/-- Mutable loop state of extractZip's for-loop. -/
structure ExtractState where
  extractedFiles : Nat
  nextProgress : Nat
  zipFilePath : Option (List Char)
  xwalkOutputs : List (List Char)
  progressReports : List Nat
  writes : List (List Char)
deriving DecidableEq, Repr

/-- Lines 102-106 of sta-import-zip.js: when fewer than three entries have
been processed and the entry name ends in '.zip', set the xwalk_zip output
and overwrite zipFilePath. -/
def scanUpdate (st : ExtractState) (e : ZEntry) : ExtractState :=
  if st.extractedFiles < 3 && endsWithZip e.path then
    { st with zipFilePath := some e.path,
              xwalkOutputs := st.xwalkOutputs ++ [e.path] }
  else st

/-- Lines 108-119: materialize the entry under the destination root (the
directory/file distinction does not change which path is produced). -/
def writeUpdate (contentsDir : List Char) (st : ExtractState) (e : ZEntry) :
    ExtractState :=
  { st with writes := st.writes ++ [pathJoin contentsDir e.path] }

/-- Lines 121-126: bump the processed counter, compute the percentage with
Math.floor (Nat division models the floor of the real quotient; the double
rounding of the source cannot move the value across a multiple of 20 at any
realistic entry count), and report progress when it reaches nextProgress. -/
def progressUpdate (total : Nat) (st : ExtractState) : ExtractState :=
  let extracted := st.extractedFiles + 1
  let progress := 100 * extracted / total
  if st.nextProgress ≤ progress then
    { st with extractedFiles := extracted,
              progressReports := st.progressReports ++ [progress],
              nextProgress := st.nextProgress + 20 }
  else { st with extractedFiles := extracted }

/-- One iteration of extractZip's entry loop. -/
def extractStep (contentsDir : List Char) (total : Nat) (st : ExtractState)
    (e : ZEntry) : ExtractState :=
  progressUpdate total (writeUpdate contentsDir (scanUpdate st e) e)

/-- The entry loop of extractZip. -/
def extractLoop (contentsDir : List Char) (total : Nat) :
    List ZEntry → ExtractState → ExtractState
  | [], st => st
  | e :: es, st => extractLoop contentsDir total es (extractStep contentsDir total st e)

/-- Initial loop state: extractedFiles = 0, nextProgress = 20, no candidate. -/
def initState : ExtractState := ⟨0, 20, none, [], [], []⟩

/-- Result of extractZip: the returned totalFiles, the final candidate
nested-archive path, the successive xwalk_zip output writes, the progress
reports, the awaited file writes, and the write operations started on the
nested archive but not awaited before the function returns (the
filter.xml extraction pipeline of lines 129-157). -/
structure ExtractOut where
  totalFiles : Nat
  xwalkZip : Option (List Char)
  xwalkOutputs : List (List Char)
  progressReports : List Nat
  writes : List (List Char)
  detached : List (List Char × List Char)
deriving DecidableEq, Repr

/-- extractZip from sta-import-zip.js on the entry list of a valid archive:
totalFiles is set to directory.files.length up front, the loop runs over
every entry, and when a candidate nested zip was recorded an unawaited
stream pipeline is started that writes entry META-INF/vault/filter.xml of
the nested archive to the relative path 'filter.xml'. -/
def extractZip (contentsDir : List Char) (entries : List ZEntry) : ExtractOut :=
  let total := entries.length
  let st := extractLoop contentsDir total entries initState
  let detached :=
    match st.zipFilePath with
    | some z => [(pathJoin contentsDir z, "filter.xml".toList)]
    | none => []
  ⟨total, st.zipFilePath, st.xwalkOutputs, st.progressReports, st.writes, detached⟩

theorem scanUpdate_zipFilePath (st : ExtractState) (e : ZEntry) :
    (scanUpdate st e).zipFilePath =
      if st.extractedFiles < 3 && endsWithZip e.path then some e.path
      else st.zipFilePath := by
  unfold scanUpdate; split <;> simp_all

theorem scanUpdate_xwalkOutputs (st : ExtractState) (e : ZEntry) :
    (scanUpdate st e).xwalkOutputs =
      if st.extractedFiles < 3 && endsWithZip e.path then
        st.xwalkOutputs ++ [e.path]
      else st.xwalkOutputs := by
  unfold scanUpdate; split <;> simp_all

theorem scanUpdate_extractedFiles (st : ExtractState) (e : ZEntry) :
    (scanUpdate st e).extractedFiles = st.extractedFiles := by
  unfold scanUpdate; split <;> simp_all

theorem progressUpdate_extractedFiles (total : Nat) (st : ExtractState) :
    (progressUpdate total st).extractedFiles = st.extractedFiles + 1 := by
  unfold progressUpdate; dsimp only; split <;> simp_all

theorem progressUpdate_zipFilePath (total : Nat) (st : ExtractState) :
    (progressUpdate total st).zipFilePath = st.zipFilePath := by
  unfold progressUpdate; dsimp only; split <;> simp_all

theorem progressUpdate_xwalkOutputs (total : Nat) (st : ExtractState) :
    (progressUpdate total st).xwalkOutputs = st.xwalkOutputs := by
  unfold progressUpdate; dsimp only; split <;> simp_all

theorem extractStep_extractedFiles (cd : List Char) (total : Nat)
    (st : ExtractState) (e : ZEntry) :
    (extractStep cd total st e).extractedFiles = st.extractedFiles + 1 := by
  simp [extractStep, progressUpdate_extractedFiles, writeUpdate,
    scanUpdate_extractedFiles]

theorem extractStep_zipFilePath (cd : List Char) (total : Nat)
    (st : ExtractState) (e : ZEntry) :
    (extractStep cd total st e).zipFilePath =
      if st.extractedFiles < 3 && endsWithZip e.path then some e.path
      else st.zipFilePath := by
  simp [extractStep, progressUpdate_zipFilePath, writeUpdate,
    scanUpdate_zipFilePath, scanUpdate]
  split <;> simp_all

theorem extractStep_xwalkOutputs (cd : List Char) (total : Nat)
    (st : ExtractState) (e : ZEntry) :
    (extractStep cd total st e).xwalkOutputs =
      if st.extractedFiles < 3 && endsWithZip e.path then
        st.xwalkOutputs ++ [e.path]
      else st.xwalkOutputs := by
  simp [extractStep, progressUpdate_xwalkOutputs, writeUpdate,
    scanUpdate_xwalkOutputs, scanUpdate]
  split <;> simp_all

theorem extractLoop_extractedFiles (cd : List Char) (total : Nat)
    (es : List ZEntry) (st : ExtractState) :
    (extractLoop cd total es st).extractedFiles =
      st.extractedFiles + es.length := by
  induction es generalizing st with
  | nil => simp [extractLoop]
  | cons e es ih =>
    simp [extractLoop, ih, extractStep_extractedFiles]
    omega

theorem extractLoop_scan (cd : List Char) (total : Nat) (es : List ZEntry)
    (st : ExtractState) :
    (extractLoop cd total es st).zipFilePath =
      ((((es.take (3 - st.extractedFiles)).filter
          (fun e => endsWithZip e.path)).map (fun e => e.path)).reverse.head?).or
        st.zipFilePath ∧
    (extractLoop cd total es st).xwalkOutputs =
      st.xwalkOutputs ++
        (((es.take (3 - st.extractedFiles)).filter
          (fun e => endsWithZip e.path)).map (fun e => e.path)) := by
  induction es generalizing st with
  | nil => simp [extractLoop]
  | cons e es ih =>
    have hstep := ih (extractStep cd total st e)
    rw [extractStep_extractedFiles] at hstep
    by_cases hk : st.extractedFiles < 3
    · have htake : (e :: es).take (3 - st.extractedFiles)
          = e :: es.take (3 - (st.extractedFiles + 1)) := by
        have : 3 - st.extractedFiles = (3 - (st.extractedFiles + 1)) + 1 := by omega
        rw [this, List.take_succ_cons]
      by_cases hq : endsWithZip e.path
      · have hcond : (st.extractedFiles < 3 && endsWithZip e.path) = true := by
          simp [hk, hq]
        constructor
        · rw [extractLoop, hstep.1, extractStep_zipFilePath, hcond, htake]
          simp only [List.filter_cons, hq, if_true, List.map_cons,
            List.reverse_cons, List.head?_append, Option.or_assoc]
          simp
        · rw [extractLoop, hstep.2, extractStep_xwalkOutputs, hcond, htake]
          simp only [List.filter_cons, hq, if_true, List.map_cons]
          simp
      · have hcond : (st.extractedFiles < 3 && endsWithZip e.path) = false := by
          simp [hq]
        constructor
        · rw [extractLoop, hstep.1, extractStep_zipFilePath, hcond, htake]
          simp only [List.filter_cons, hq, if_false]
          simp
        · rw [extractLoop, hstep.2, extractStep_xwalkOutputs, hcond, htake]
          simp only [List.filter_cons, hq, if_false]
          simp
    · have hcond : (st.extractedFiles < 3 && endsWithZip e.path) = false := by
        simp [hk]
      have h0 : 3 - st.extractedFiles = 0 := by omega
      have h1 : 3 - (st.extractedFiles + 1) = 0 := by omega
      rw [h0] at *
      constructor
      · rw [extractLoop, hstep.1, extractStep_zipFilePath, hcond, h1]
        simp
      · rw [extractLoop, hstep.2, extractStep_xwalkOutputs, hcond, h1]
        simp

/-- Concrete archive listing used to refute the first-candidate reading of
the nested-archive heuristic: two zips among the first three entries. -/
def twoZipEntries : List ZEntry :=
  [⟨"a.zip".toList, false⟩, ⟨"b.zip".toList, false⟩, ⟨"c".toList, false⟩]

/-- C1 counterexample: on an archive whose first three entries are a.zip,
b.zip, c, the recorded candidate nested archive is b.zip, not the first
qualifying entry a.zip, and the candidate output is written twice, not
once. -/
theorem nested_candidate_not_first :
    (extractZip [] twoZipEntries).xwalkZip ≠ some "a.zip".toList ∧
    (extractZip [] twoZipEntries).xwalkZip = some "b.zip".toList ∧
    (extractZip [] twoZipEntries).xwalkOutputs.length = 2 := by
  refine ⟨?_, ?_, ?_⟩ <;> decide

/-- C1 amended: during extraction, the candidate output is written once per
entry, among the first three entries processed, whose name ends in '.zip'
(case-insensitive) — so up to three times — and the recorded candidate
nested archive is the LAST such entry (each later qualifying entry
overwrites the earlier candidate). -/
theorem nested_candidate_last_of_first_three (cd : List Char)
    (entries : List ZEntry) :
    (extractZip cd entries).xwalkOutputs =
      ((entries.take 3).filter (fun e => endsWithZip e.path)).map
        (fun e => e.path) ∧
    (extractZip cd entries).xwalkZip =
      (((entries.take 3).filter (fun e => endsWithZip e.path)).map
        (fun e => e.path)).reverse.head? := by
  have h := extractLoop_scan cd entries.length entries initState
  constructor
  · show (extractLoop cd entries.length entries initState).xwalkOutputs = _
    rw [h.2]
    simp [initState]
  · show (extractLoop cd entries.length entries initState).zipFilePath = _
    rw [h.1]
    simp [initState]

/-- C9: when no entry among the first three has a name ending in '.zip'
(case-insensitive), extraction records no nested-archive candidate and
never writes the candidate output. -/
theorem no_zip_no_candidate (cd : List Char) (entries : List ZEntry)
    (h : ∀ e ∈ entries.take 3, endsWithZip e.path = false) :
    (extractZip cd entries).xwalkZip = none ∧
    (extractZip cd entries).xwalkOutputs = [] := by
  have hs := extractLoop_scan cd entries.length entries initState
  have hfil : (entries.take 3).filter (fun e => endsWithZip e.path) = [] := by
    rw [List.filter_eq_nil_iff]
    intro e he
    simp [h e he]
  constructor
  · show (extractLoop cd entries.length entries initState).zipFilePath = _
    rw [hs.1]
    simp [initState, hfil]
  · show (extractLoop cd entries.length entries initState).xwalkOutputs = _
    rw [hs.2]
    simp [initState, hfil]

/-- C9 witness: an archive with a single non-zip entry has no candidate. -/
theorem no_zip_no_candidate_witness :
    (extractZip [] [⟨"a.txt".toList, false⟩]).xwalkZip = none ∧
    (extractZip [] [⟨"a.txt".toList, false⟩]).xwalkOutputs = [] :=
  no_zip_no_candidate [] [⟨"a.txt".toList, false⟩] (by decide)

/-- C6: extraction returns the archive's declared entry count — the length
of the central-directory listing — and indeed processes exactly that many
entries in its loop. -/
theorem extract_total_count (cd : List Char) (entries : List ZEntry) :
    (extractZip cd entries).totalFiles = entries.length ∧
    (extractLoop cd entries.length entries initState).extractedFiles
      = entries.length := by
  constructor
  · rfl
  · rw [extractLoop_extractedFiles]
    simp [initState]

/-- Progress side of the extraction loop in isolation: r entries remain,
k entries are done, next is the pending report threshold. -/
def progressTrace (total : Nat) : Nat → Nat → Nat → List Nat
  | 0, _, _ => []
  | r + 1, k, next =>
    let p := 100 * (k + 1) / total
    if next ≤ p then p :: progressTrace total r (k + 1) (next + 20)
    else progressTrace total r (k + 1) next

/-- Modelled from the spec's wording for the progress contract: walk the
n entries; after the (k+1)-st entry, with c reports consumed so far, a
report is emitted exactly when the completion percentage has crossed the
next unconsumed multiple of 20, namely 20 * (c + 1). -/
def specProgressGo (n : Nat) : Nat → Nat → Nat → List Nat
  | 0, _, _ => []
  | r + 1, k, c =>
    let p := 100 * (k + 1) / n
    if 20 * (c + 1) ≤ p then p :: specProgressGo n r (k + 1) (c + 1)
    else specProgressGo n r (k + 1) c

/-- Progress reports demanded by the spec for an n-entry archive. -/
def specProgressEvents (n : Nat) : List Nat := specProgressGo n n 0 0

theorem extractStep_nextProgress (cd : List Char) (total : Nat)
    (st : ExtractState) (e : ZEntry) :
    (extractStep cd total st e).nextProgress =
      if st.nextProgress ≤ 100 * (st.extractedFiles + 1) / total then
        st.nextProgress + 20
      else st.nextProgress := by
  simp only [extractStep, progressUpdate, writeUpdate, scanUpdate]
  split <;> (try dsimp only) <;> split <;> simp_all

theorem extractStep_progressReports (cd : List Char) (total : Nat)
    (st : ExtractState) (e : ZEntry) :
    (extractStep cd total st e).progressReports =
      if st.nextProgress ≤ 100 * (st.extractedFiles + 1) / total then
        st.progressReports ++ [100 * (st.extractedFiles + 1) / total]
      else st.progressReports := by
  simp only [extractStep, progressUpdate, writeUpdate, scanUpdate]
  split <;> (try dsimp only) <;> split <;> simp_all

theorem extractLoop_progress (cd : List Char) (total : Nat) (es : List ZEntry)
    (st : ExtractState) :
    (extractLoop cd total es st).progressReports =
      st.progressReports ++
        progressTrace total es.length st.extractedFiles st.nextProgress := by
  induction es generalizing st with
  | nil => simp [extractLoop, progressTrace]
  | cons e es ih =>
    rw [extractLoop, ih]
    rw [extractStep_progressReports, extractStep_nextProgress,
      extractStep_extractedFiles]
    by_cases hc : st.nextProgress ≤ 100 * (st.extractedFiles + 1) / total
    · simp [progressTrace, hc]
    · simp [progressTrace, hc]

theorem progressTrace_eq_spec (n : Nat) :
    ∀ r k c, progressTrace n r k (20 * (c + 1)) = specProgressGo n r k c := by
  intro r
  induction r with
  | zero => intro k c; rfl
  | succ r ih =>
    intro k c
    rw [progressTrace, specProgressGo]
    by_cases hc : 20 * (c + 1) ≤ 100 * (k + 1) / n
    · dsimp only
      rw [if_pos hc, if_pos hc]
      have h20 : 20 * (c + 1) + 20 = 20 * (c + 1 + 1) := by ring
      rw [h20, ih]
    · dsimp only
      rw [if_neg hc, if_neg hc, ih]

theorem progressTrace_bound (n : Nat) :
    ∀ r k next, k + r ≤ n →
      20 * (progressTrace n r k next).length + next ≤ 120 ∨
      (progressTrace n r k next).length = 0 := by
  intro r
  induction r with
  | zero => intro k next _; right; rfl
  | succ r ih =>
    intro k next hkr
    rw [progressTrace]
    by_cases hc : next ≤ 100 * (k + 1) / n
    · dsimp only
      rw [if_pos hc]
      have hp : 100 * (k + 1) / n ≤ 100 := by
        have hn : 0 < n := by omega
        have h2 : 100 * n / n = 100 := by
          rw [mul_comm]
          exact Nat.mul_div_cancel_left 100 hn
        calc 100 * (k + 1) / n ≤ 100 * n / n :=
              Nat.div_le_div_right (Nat.mul_le_mul_left 100 (by omega))
          _ = 100 := h2
      have hnext : next ≤ 100 := le_trans hc hp
      have := ih (k + 1) (next + 20) (by omega)
      left
      rcases this with h | h
      · simp only [List.length_cons]
        omega
      · simp only [List.length_cons, h]
        omega
    · dsimp only
      rw [if_neg hc]
      exact ih (k + 1) next (by omega)

/-- C5: extraction emits at most 5 progress reports regardless of the
archive's entry count, and the report sequence is exactly the one the spec
demands: after an entry a report is emitted exactly when the completion
percentage has crossed the next unconsumed multiple of 20%. -/
theorem progress_events_bounded_and_thresholds (cd : List Char)
    (entries : List ZEntry) :
    (extractZip cd entries).progressReports
      = specProgressEvents entries.length ∧
    (extractZip cd entries).progressReports.length ≤ 5 := by
  have hrep : (extractZip cd entries).progressReports
      = progressTrace entries.length entries.length 0 20 := by
    show (extractLoop cd entries.length entries initState).progressReports = _
    rw [extractLoop_progress]
    simp [initState]
  constructor
  · rw [hrep, specProgressEvents]
    have h20 : (20 : Nat) = 20 * (0 + 1) := by ring
    rw [h20, progressTrace_eq_spec]
  · rw [hrep]
    have := progressTrace_bound entries.length entries.length 0 20
      (by omega)
    rcases this with h | h <;> omega

theorem isPrefixOf_eq_append (l : List Char) :
    ∀ r : List Char, l.isPrefixOf r = true ↔ ∃ t, r = l ++ t := by
  induction l with
  | nil => intro r; simp [List.isPrefixOf]
  | cons c cs ih =>
    intro r
    cases r with
    | nil =>
      simp [List.isPrefixOf]
    | cons d ds =>
      simp only [List.isPrefixOf, Bool.and_eq_true, beq_iff_eq, ih,
        List.cons_append, List.cons_eq_cons]
      constructor
      · rintro ⟨h1, t, h2⟩; exact ⟨t, h1.symm, h2⟩
      · rintro ⟨t, h1, h2⟩; exact ⟨h1.symm, t, h2⟩

/-- JS String.prototype.includes: scan for the needle at every suffix. -/
def subList (needle : List Char) : List Char → Bool
  | [] => needle.isEmpty
  | c :: cs => needle.isPrefixOf (c :: cs) || subList needle cs

theorem subList_nil (r : List Char) : subList [] r = true := by
  cases r <;> simp [subList, List.isPrefixOf]

theorem subList_of_append (m a r : List Char) :
    subList m (a ++ (m ++ r)) = true := by
  induction a with
  | nil =>
    cases m with
    | nil => simpa using subList_nil r
    | cons x xs =>
      show subList (x :: xs) (x :: (xs ++ r)) = true
      rw [subList]
      have : List.isPrefixOf (x :: xs) (x :: (xs ++ r)) = true :=
        (isPrefixOf_eq_append _ _).mpr ⟨r, by simp⟩
      simp [this]
  | cons c a ih =>
    show subList m (c :: (a ++ (m ++ r))) = true
    rw [subList]
    simp [ih]

/-- Decomposition of an equation between two strings that each end in a
'/'-headed tail: when the first tail is '/'-free, either both sides split
identically, or the first string extends past the second one's marker. -/
theorem slashSplit (a : List Char) :
    ∀ b u v : List Char, a ++ '/' :: u = b ++ '/' :: v → '/' ∉ u →
      (a = b ∧ u = v) ∨ (∃ w, a = b ++ '/' :: w ∧ v = w ++ '/' :: u) := by
  induction a with
  | nil =>
    intro b u v h hu
    cases b with
    | nil =>
      left
      constructor
      · rfl
      · simpa using h
    | cons d bs =>
      exfalso
      simp only [List.nil_append, List.cons_append, List.cons_eq_cons] at h
      exact hu (h.2 ▸ List.mem_append_right bs (List.mem_cons_self _ _))
  | cons c as ih =>
    intro b u v h hu
    cases b with
    | nil =>
      simp only [List.cons_append, List.nil_append, List.cons_eq_cons] at h
      right
      exact ⟨as, by simp [h.1], h.2.symm⟩
    | cons d bs =>
      simp only [List.cons_append, List.cons_eq_cons] at h
      rcases ih bs u v h.2 hu with ⟨h1, h2⟩ | ⟨w, h1, h2⟩
      · left; simp [h.1, h1, h2]
      · right; exact ⟨w, by simp [h.1, h1], h2⟩

/-- Membership of a path in the directory tree rooted at root: the root
itself, or any path below it. -/
def inTree (root p : List Char) : Bool :=
  p == root || List.isPrefixOf (root ++ ['/']) p

/-- Resolution of a path against the process working directory: absolute
paths stand, relative paths are joined onto the working directory. -/
def resolvePath (cwd p : List Char) : List Char :=
  if p.head? = some '/' then p else cwd ++ '/' :: p

theorem extractStep_writes (cd : List Char) (total : Nat) (st : ExtractState)
    (e : ZEntry) :
    (extractStep cd total st e).writes = st.writes ++ [pathJoin cd e.path] := by
  simp only [extractStep, progressUpdate, writeUpdate, scanUpdate]
  split <;> (try dsimp only) <;> split <;> simp_all

theorem extractLoop_writes (cd : List Char) (total : Nat) (es : List ZEntry)
    (st : ExtractState) :
    (extractLoop cd total es st).writes =
      st.writes ++ es.map (fun e => pathJoin cd e.path) := by
  induction es generalizing st with
  | nil => simp [extractLoop]
  | cons e es ih => simp [extractLoop, ih, extractStep_writes]

theorem extractZip_detached (cd : List Char) (entries : List ZEntry) :
    (extractZip cd entries).detached =
      match (extractZip cd entries).xwalkZip with
      | some z => [(pathJoin cd z, "filter.xml".toList)]
      | none => [] := rfl

/-- C10: when a nested-archive candidate was recorded, the manifest
extraction started by extractZip is a detached stream pipeline — it is not
among the awaited entry writes and extractZip returns without waiting on
it — and its write target is the relative path 'filter.xml', which
resolves under the process working directory and therefore lies outside
the temporary workspace tree whenever the working directory does
(mkdtemp gives the workspace root the absolute shape base/sta-XXXXXX). -/
theorem filter_write_detached_outside_workspace
    (tempDir cwd z : List Char) (entries : List ZEntry)
    (hout : inTree tempDir cwd = false)
    (hshape : ∃ base suf,
      tempDir = base ++ '/' :: 's' :: 't' :: 'a' :: '-' :: suf ∧ '/' ∉ suf)
    (habs : tempDir.head? = some '/')
    (hcand : (extractZip (tempDir ++ '/' :: "contents".toList) entries).xwalkZip
      = some z) :
    (extractZip (tempDir ++ '/' :: "contents".toList) entries).detached
      = [(pathJoin (tempDir ++ '/' :: "contents".toList) z, "filter.xml".toList)] ∧
    "filter.xml".toList ∉
      (extractZip (tempDir ++ '/' :: "contents".toList) entries).writes ∧
    resolvePath cwd "filter.xml".toList = cwd ++ '/' :: "filter.xml".toList ∧
    inTree tempDir (resolvePath cwd "filter.xml".toList) = false := by
  obtain ⟨base, suf, hbs, hsuf⟩ := hshape
  have hcwdne : (cwd == tempDir) = false ∧
      List.isPrefixOf (tempDir ++ ['/']) cwd = false := by
    have := hout
    simp only [inTree, Bool.or_eq_false_iff] at this
    exact this
  have hres : resolvePath cwd "filter.xml".toList
      = cwd ++ '/' :: "filter.xml".toList := by
    simp [resolvePath]
  refine ⟨?_, ?_, hres, ?_⟩
  · rw [extractZip_detached, hcand]
  · intro hmem
    have hw : (extractZip (tempDir ++ '/' :: "contents".toList) entries).writes
        = entries.map (fun e => pathJoin (tempDir ++ '/' :: "contents".toList) e.path) := by
      show (extractLoop _ entries.length entries initState).writes = _
      rw [extractLoop_writes]
      simp [initState]
    rw [hw] at hmem
    obtain ⟨e, _, heq⟩ := List.mem_map.mp hmem
    have hhead := congrArg List.head? heq
    cases tempDir with
    | nil => simp at habs
    | cons t ts =>
      have ht : t = '/' := by simpa using habs
      simp [pathJoin, ht] at hhead
  · rw [hres]
    have hfx : ('/' : Char) ∉ "filter.xml".toList := by decide
    have h1 : ((cwd ++ '/' :: "filter.xml".toList) == tempDir) = false := by
      rw [beq_eq_false_iff_ne]
      intro heq
      have hu : ('/' : Char) ∉ 's' :: 't' :: 'a' :: '-' :: suf := by
        intro hmem
        simp only [List.mem_cons] at hmem
        rcases hmem with h | h | h | h | h
        · exact absurd h (by decide)
        · exact absurd h (by decide)
        · exact absurd h (by decide)
        · exact absurd h (by decide)
        · exact hsuf h
      have heq2 : base ++ '/' :: 's' :: 't' :: 'a' :: '-' :: suf
          = cwd ++ '/' :: "filter.xml".toList := by
        rw [heq, hbs]
      rcases slashSplit base cwd ('s' :: 't' :: 'a' :: '-' :: suf)
          "filter.xml".toList heq2 hu with ⟨_, h2⟩ | ⟨w, _, h2⟩
      · have hh := congrArg List.head? h2
        have hf : "filter.xml".toList.head? = some 'f' := by decide
        rw [hf] at hh
        simp only [List.head?_cons, Option.some.injEq] at hh
        exact absurd hh (by decide)
      · exact hfx (h2 ▸ List.mem_append_right w (List.mem_cons_self _ _))
    have h2 : List.isPrefixOf (tempDir ++ ['/'])
        (cwd ++ '/' :: "filter.xml".toList) = false := by
      by_contra hb
      have hb' : List.isPrefixOf (tempDir ++ ['/'])
          (cwd ++ '/' :: "filter.xml".toList) = true := by
        revert hb
        cases List.isPrefixOf (tempDir ++ ['/'])
          (cwd ++ '/' :: "filter.xml".toList) <;> simp
      obtain ⟨t, ht⟩ := (isPrefixOf_eq_append _ _).mp hb'
      have ht2 : cwd ++ '/' :: "filter.xml".toList = tempDir ++ '/' :: t := by
        rw [ht]; simp
      rcases slashSplit cwd tempDir "filter.xml".toList t ht2 hfx with
        ⟨he, _⟩ | ⟨w, he, _⟩
      · rw [beq_eq_false_iff_ne] at hcwdne
        exact hcwdne.1 he
      · have : List.isPrefixOf (tempDir ++ ['/']) cwd = true :=
          (isPrefixOf_eq_append _ _).mpr ⟨w, by rw [he]; simp⟩
        rw [hcwdne.2] at this
        exact absurd this (by simp)
    show ((cwd ++ '/' :: "filter.xml".toList == tempDir) ||
      List.isPrefixOf (tempDir ++ ['/'])
        (cwd ++ '/' :: "filter.xml".toList)) = false
    rw [h1, h2]
    rfl

/-- C10 witness: a concrete run with working directory /home/runner/work,
workspace /tmp/sta-abc123 and a nested archive recorded as cp.zip. -/
theorem filter_write_detached_outside_workspace_witness :
    (extractZip ("/tmp/sta-abc123".toList ++ '/' :: "contents".toList)
        [⟨"cp.zip".toList, false⟩]).detached
      = [(pathJoin ("/tmp/sta-abc123".toList ++ '/' :: "contents".toList)
          "cp.zip".toList, "filter.xml".toList)] ∧
    "filter.xml".toList ∉
      (extractZip ("/tmp/sta-abc123".toList ++ '/' :: "contents".toList)
        [⟨"cp.zip".toList, false⟩]).writes ∧
    resolvePath "/home/runner/work".toList "filter.xml".toList
      = "/home/runner/work".toList ++ '/' :: "filter.xml".toList ∧
    inTree "/tmp/sta-abc123".toList
      (resolvePath "/home/runner/work".toList "filter.xml".toList) = false :=
  filter_write_detached_outside_workspace "/tmp/sta-abc123".toList
    "/home/runner/work".toList "cp.zip".toList [⟨"cp.zip".toList, false⟩]
    (by decide) ⟨"/tmp".toList, "abc123".toList, by decide, by decide⟩
    (by decide) (by decide)


/-- Outcome of fetchZip: the HTTP response is not ok (throws before the
destination file is created), the stream write or the zip validation fails
(throws after the destination file exists), or success. -/
inductive FetchOutcome
  | httpError
  | failedAfterCreate
  | ok
deriving DecidableEq, Repr

/-- Observable pipeline events of sta-import-zip's run(): the temporary
workspace creation, the network fetch, and each core.setOutput call. -/
inductive PEvent
  | tempCreated (dir : List Char)
  | fetchReq (url : List Char)
  | outputSet (key : List Char)
deriving DecidableEq, Repr

/-- Result of one run of the import pipeline: its event trace and the final
file system (a list of existing paths). -/
structure RunOut where
  events : List PEvent
  fs : List (List Char)
deriving DecidableEq, Repr

/-- Deletion of a file, fs.unlinkSync on the abstract file system. -/
def removeFile (p : List Char) (fs : List (List Char)) : List (List Char) :=
  fs.filter (fun q => !(q == p))

/-- run() of sta-import-zip.js.  The url check and URL parse happen before
any directory or network work; zipDestination is assigned right after the
workspace is created, so the finally block unlinks it on every subsequent
path.  extraWrites stands for whatever paths extraction materialized under
the contents directory (possibly a partial set when extraction failed). -/
def importRun (url : List Char) (urlParses : Bool) (tempDir : List Char)
    (fetch : FetchOutcome) (extractOk : Bool) (extraWrites : List (List Char))
    (fs0 : List (List Char)) : RunOut :=
  let zipPath := pathJoin tempDir "import.zip".toList
  let contentsPath := pathJoin tempDir "contents".toList
  if subList "spacecat".toList url = false then
    ⟨[.outputSet "error_message".toList], fs0⟩
  else if urlParses = false then
    ⟨[.outputSet "error_message".toList], fs0⟩
  else
    let fs1 := contentsPath :: tempDir :: fs0
    let ev1 := [PEvent.tempCreated tempDir, PEvent.fetchReq url]
    match fetch with
    | .httpError =>
        ⟨ev1 ++ [.outputSet "error_message".toList], removeFile zipPath fs1⟩
    | .failedAfterCreate =>
        ⟨ev1 ++ [.outputSet "error_message".toList],
          removeFile zipPath (zipPath :: fs1)⟩
    | .ok =>
        let fs2 := extraWrites ++ zipPath :: fs1
        if extractOk then
          ⟨ev1 ++ [.outputSet "temp_dir".toList,
              .outputSet "file_count".toList],
            removeFile zipPath fs2⟩
        else
          ⟨ev1 ++ [.outputSet "error_message".toList], removeFile zipPath fs2⟩

theorem removeFile_not_mem (p : List Char) (fs : List (List Char)) :
    p ∉ removeFile p fs := by
  intro h
  have := (List.mem_filter.mp h).2
  simp at this

theorem removeFile_mem_of_ne (p q : List Char) (fs : List (List Char))
    (hq : q ∈ fs) (hne : q ≠ p) : q ∈ removeFile p fs := by
  rw [removeFile, List.mem_filter]
  exact ⟨hq, by simp [hne]⟩

/-- C4: on every run of the import pipeline — early rejection, fetch
failure before or after the archive file exists, extraction failure, or
success — the downloaded archive file does not exist when the run ends,
while the contents directory, created whenever the pipeline got past URL
validation, still exists. -/
theorem archive_cleanup_contents_preserved (url : List Char)
    (urlParses : Bool) (tempDir : List Char) (fetch : FetchOutcome)
    (extractOk : Bool) (extraWrites fs0 : List (List Char))
    (h0 : pathJoin tempDir "import.zip".toList ∉ fs0) :
    pathJoin tempDir "import.zip".toList ∉
      (importRun url urlParses tempDir fetch extractOk extraWrites fs0).fs ∧
    (subList "spacecat".toList url = true → urlParses = true →
      pathJoin tempDir "contents".toList ∈
        (importRun url urlParses tempDir fetch extractOk extraWrites fs0).fs) := by
  have hne : pathJoin tempDir "contents".toList
      ≠ pathJoin tempDir "import.zip".toList := by
    intro h
    have h2 := congrArg List.length h
    have e1 : ("contents".toList).length = 8 := by decide
    have e2 : ("import.zip".toList).length = 10 := by decide
    rw [pathJoin, pathJoin, List.length_append, List.length_append,
      List.length_cons, List.length_cons, e1, e2] at h2
    omega
  cases hsp : subList "spacecat".toList url with
  | false =>
    have hrun : importRun url urlParses tempDir fetch extractOk extraWrites fs0
        = ⟨[PEvent.outputSet "error_message".toList], fs0⟩ := by
      simp only [importRun]
      rw [hsp]
      simp
    constructor
    · rw [hrun]; exact h0
    · intro hcontra; exact absurd hcontra (by simp)
  | true =>
    cases urlParses with
    | false =>
      have hrun : importRun url false tempDir fetch extractOk extraWrites fs0
          = ⟨[PEvent.outputSet "error_message".toList], fs0⟩ := by
        simp only [importRun]
        rw [hsp]
        simp
      constructor
      · rw [hrun]; exact h0
      · intro _ hcontra; exact absurd hcontra (by simp)
    | true =>
      cases fetch with
      | httpError =>
        have hrun : (importRun url true tempDir FetchOutcome.httpError
            extractOk extraWrites fs0).fs
            = removeFile (pathJoin tempDir "import.zip".toList)
                (pathJoin tempDir "contents".toList :: tempDir :: fs0) := by
          simp only [importRun]
          rw [hsp]
          simp
        refine ⟨?_, fun _ _ => ?_⟩
        · rw [hrun]; exact removeFile_not_mem _ _
        · rw [hrun]; exact removeFile_mem_of_ne _ _ _ (by simp) hne
      | failedAfterCreate =>
        have hrun : (importRun url true tempDir FetchOutcome.failedAfterCreate
            extractOk extraWrites fs0).fs
            = removeFile (pathJoin tempDir "import.zip".toList)
                (pathJoin tempDir "import.zip".toList ::
                  pathJoin tempDir "contents".toList :: tempDir :: fs0) := by
          simp only [importRun]
          rw [hsp]
          simp
        refine ⟨?_, fun _ _ => ?_⟩
        · rw [hrun]; exact removeFile_not_mem _ _
        · rw [hrun]; exact removeFile_mem_of_ne _ _ _ (by simp) hne
      | ok =>
        cases extractOk with
        | false =>
          have hrun : (importRun url true tempDir FetchOutcome.ok
              false extraWrites fs0).fs
              = removeFile (pathJoin tempDir "import.zip".toList)
                  (extraWrites ++ pathJoin tempDir "import.zip".toList ::
                    pathJoin tempDir "contents".toList :: tempDir :: fs0) := by
            simp only [importRun]
            rw [hsp]
            simp
          refine ⟨?_, fun _ _ => ?_⟩
          · rw [hrun]; exact removeFile_not_mem _ _
          · rw [hrun]; exact removeFile_mem_of_ne _ _ _ (by simp) hne
        | true =>
          have hrun : (importRun url true tempDir FetchOutcome.ok
              true extraWrites fs0).fs
              = removeFile (pathJoin tempDir "import.zip".toList)
                  (extraWrites ++ pathJoin tempDir "import.zip".toList ::
                    pathJoin tempDir "contents".toList :: tempDir :: fs0) := by
            simp only [importRun]
            rw [hsp]
            simp
          refine ⟨?_, fun _ _ => ?_⟩
          · rw [hrun]; exact removeFile_not_mem _ _
          · rw [hrun]; exact removeFile_mem_of_ne _ _ _ (by simp) hne

/-- C4 witness: a concrete failed run (stream failure after the archive
file was written): the archive file is gone, the contents directory is
kept. -/
theorem archive_cleanup_contents_preserved_witness :
    pathJoin "/tmp/sta-x".toList "import.zip".toList ∉
      (importRun "https://spacecat.api/x".toList true "/tmp/sta-x".toList
        FetchOutcome.failedAfterCreate true [] []).fs ∧
    (subList "spacecat".toList "https://spacecat.api/x".toList = true →
      true = true →
      pathJoin "/tmp/sta-x".toList "contents".toList ∈
        (importRun "https://spacecat.api/x".toList true "/tmp/sta-x".toList
          FetchOutcome.failedAfterCreate true [] []).fs) :=
  archive_cleanup_contents_preserved "https://spacecat.api/x".toList true
    "/tmp/sta-x".toList FetchOutcome.failedAfterCreate true [] []
    (by decide)

/-- C7: a download URL without the required 'spacecat' marker substring is
rejected up front: the run only reports the error, and in particular no
fetch request is ever issued. -/
theorem invalid_url_no_fetch (url : List Char) (urlParses : Bool)
    (tempDir : List Char) (fetch : FetchOutcome) (extractOk : Bool)
    (extraWrites fs0 : List (List Char))
    (h : subList "spacecat".toList url = false) :
    (importRun url urlParses tempDir fetch extractOk extraWrites fs0).events
      = [PEvent.outputSet "error_message".toList] ∧
    ∀ u, PEvent.fetchReq u ∉
      (importRun url urlParses tempDir fetch extractOk extraWrites fs0).events := by
  have hev : (importRun url urlParses tempDir fetch extractOk extraWrites
      fs0).events = [PEvent.outputSet "error_message".toList] := by
    simp only [importRun]
    rw [h]
    simp
  exact ⟨hev, fun u => by rw [hev]; simp⟩

/-- C7 witness: a well-formed URL from another host is rejected without a
fetch event. -/
theorem invalid_url_no_fetch_witness :
    (importRun "https://example.com/file.zip".toList true "/tmp/sta-x".toList
      FetchOutcome.ok true [] []).events
      = [PEvent.outputSet "error_message".toList] ∧
    ∀ u, PEvent.fetchReq u ∉
      (importRun "https://example.com/file.zip".toList true
        "/tmp/sta-x".toList FetchOutcome.ok true [] []).events :=
  invalid_url_no_fetch "https://example.com/file.zip".toList true
    "/tmp/sta-x".toList FetchOutcome.ok true [] [] (by decide)

/-- Argument vector built by runUpload in sta-xwalk-upload.js. -/
def uploadArgs (xwalkZipPath assetMappingPath target token : List Char)
    (skipAssets : Bool) : List (List Char) :=
  ["@adobe/aem-import-helper".toList, "aem".toList, "upload".toList,
   "--zip".toList, xwalkZipPath,
   "--asset-mapping".toList, assetMappingPath,
   "--target".toList, target,
   "--token".toList, token] ++
  (if skipAssets then ["--skip-assets".toList] else [])

/-- suffixArray from runUpload: layout suffixes cycled by index mod 9. -/
def suffixArr : List (List Char) :=
  [[], [], "\n>  ".toList, [], "\n>  ".toList, [], "\n>  ".toList, [],
   "\n>  ".toList]

/-- Replacement written for an argument equal to the token. -/
def maskTok : List Char := "***\n>  ".toList

/-- args.map((arg, index) => arg === token ? mask : arg + suffix[index % 9]). -/
def maskArgsGo (token : List Char) (i : Nat) : List (List Char) → List (List Char)
  | [] => []
  | a :: rest =>
    (if a == token then maskTok else a ++ suffixArr.getD (i % 9) []) ::
      maskArgsGo token (i + 1) rest

/-- Masked argument vector echoed to the log. -/
def maskedArgs (token : List Char) (args : List (List Char)) :
    List (List Char) :=
  maskArgsGo token 0 args

/-- joinWith sep parts: Array.prototype.join over the separator. -/
def joinWith (sep : List Char) : List (List Char) → List Char
  | [] => []
  | [x] => x
  | x :: y :: ys => x ++ sep ++ joinWith sep (y :: ys)

/-- Logged echo of the upload invocation: core.info of
'> npx ' + maskedArgs.join(' '). -/
def loggedCommand (xwalkZipPath assetMappingPath target token : List Char)
    (skipAssets : Bool) : List Char :=
  "> npx ".toList ++
    joinWith [' ']
      (maskedArgs token
        (uploadArgs xwalkZipPath assetMappingPath target token skipAssets))

/-- C8 counterexample: with the non-empty token 'a' the logged echo of the
command still contains the token verbatim as a substring (for instance
inside '@adobe/aem-import-helper'), even though the token argument itself
was masked — masking is by whole-argument equality, not by substring. -/
theorem token_substring_leak_counterexample :
    subList "a".toList
      (loggedCommand "z".toList "m".toList "t".toList "a".toList false)
      = true ∧
    (maskedArgs "a".toList
      (uploadArgs "z".toList "m".toList "t".toList "a".toList false)).getD 10 []
      = maskTok := by
  constructor <;> decide

theorem maskArgsGo_masks (token : List Char) :
    ∀ (args : List (List Char)) (i n : Nat),
      args.getD n [] = token → n < args.length →
      (maskArgsGo token i args).getD n [] = maskTok := by
  intro args
  induction args with
  | nil => intro i n _ hn; simp at hn
  | cons a rest ih =>
    intro i n ha hn
    cases n with
    | zero =>
      simp only [List.getD_cons_zero] at ha
      simp [maskArgsGo, ha]
    | succ m =>
      simp only [List.getD_cons_succ] at ha
      simp only [maskArgsGo, List.getD_cons_succ]
      exact ih (i + 1) m ha (by simpa using hn)

/-- C8 amended: every argument equal to the bearer token is replaced by the
mask in the logged echo, so the token never appears as a whole argument of
the logged command; the token can still occur verbatim inside another
argument of the log, since masking compares entire arguments. -/
theorem token_argument_masked (xwalkZipPath assetMappingPath target token
    : List Char) (skipAssets : Bool) (n : Nat)
    (ha : (uploadArgs xwalkZipPath assetMappingPath target token
      skipAssets).getD n [] = token)
    (hn : n < (uploadArgs xwalkZipPath assetMappingPath target token
      skipAssets).length) :
    (maskedArgs token (uploadArgs xwalkZipPath assetMappingPath target token
      skipAssets)).getD n [] = maskTok :=
  maskArgsGo_masks token _ 0 n ha hn

/-- C8 witness: at index 10, the slot of the token argument, the masked
vector holds the mask. -/
theorem token_argument_masked_witness :
    (maskedArgs "tok".toList
      (uploadArgs "z".toList "m".toList "https://t/".toList "tok".toList
        false)).getD 10 [] = maskTok :=
  token_argument_masked "z".toList "m".toList "https://t/".toList
    "tok".toList false 10 (by decide) (by decide)

/-- Separator '/sites/' used by getMountpointData in sta-mountpoint.js. -/
def sitesSep : List Char := ['/', 's', 'i', 't', 'e', 's', '/']

/-- JS `s.split('/sites/')`: leftmost non-overlapping occurrences.  The
first argument is fuel bounding the recursion depth — always called with
more fuel than the input's length, so the fuel-exhausted branch is never
reached (the join lemma below holds for every sufficiently fueled call). -/
def splitSitesF : Nat → List Char → List Char → List (List Char)
  | 0, s, acc => [acc.reverse ++ s]
  | n + 1, s, acc =>
    match s with
    | [] => [acc.reverse]
    | c :: cs =>
      if sitesSep.isPrefixOf (c :: cs) then
        acc.reverse :: splitSitesF n (cs.drop 6) []
      else splitSitesF n cs (c :: acc)

/-- url.pathname.split('/sites/'). -/
def splitSites (s : List Char) : List (List Char) :=
  splitSitesF (s.length + 1) s []

theorem splitCharGo_ne_nil (sep : Char) :
    ∀ s acc, splitCharGo sep s acc ≠ [] := by
  intro s
  induction s with
  | nil => intro acc; simp [splitCharGo]
  | cons c cs ih =>
    intro acc
    rw [splitCharGo]
    split
    · simp
    · exact ih (c :: acc)

theorem joinWith_splitCharGo (sep : Char) :
    ∀ s acc, joinWith [sep] (splitCharGo sep s acc) = acc.reverse ++ s := by
  intro s
  induction s with
  | nil => intro acc; simp [splitCharGo, joinWith]
  | cons c cs ih =>
    intro acc
    rw [splitCharGo]
    by_cases hc : (c == sep) = true
    · rw [if_pos hc]
      obtain ⟨l, ls, hl⟩ := List.exists_cons_of_ne_nil (splitCharGo_ne_nil sep cs [])
      rw [hl]
      show acc.reverse ++ [sep] ++ joinWith [sep] (l :: ls) = acc.reverse ++ c :: cs
      rw [← hl, ih []]
      have : c = sep := by simpa using hc
      simp [this]
    · rw [if_neg hc, ih (c :: acc)]
      simp

theorem splitCharGo_head_no_sep (sep : Char) :
    ∀ s acc, sep ∉ acc → sep ∉ (splitCharGo sep s acc).headD [] := by
  intro s
  induction s with
  | nil =>
    intro acc ha
    simpa [splitCharGo] using fun h => ha (List.mem_reverse.mp h)
  | cons c cs ih =>
    intro acc ha
    rw [splitCharGo]
    by_cases hc : (c == sep) = true
    · rw [if_pos hc]
      simpa using fun h => ha (List.mem_reverse.mp h)
    · rw [if_neg hc]
      refine ih (c :: acc) ?_
      intro h
      rcases List.mem_cons.mp h with h | h
      · exact absurd h.symm (by simpa using hc)
      · exact ha h

theorem splitSitesF_ne_nil :
    ∀ (n : Nat) (s acc : List Char), s.length ≤ n →
      splitSitesF (n + 1) s acc ≠ [] := by
  intro n
  induction n with
  | zero =>
    intro s acc hs
    have : s = [] := List.length_eq_zero.mp (Nat.le_zero.mp hs)
    subst this
    simp [splitSitesF]
  | succ n ih =>
    intro s acc hs
    cases s with
    | nil => simp [splitSitesF]
    | cons c cs =>
      rw [splitSitesF]
      split
      · simp
      · refine ih cs (c :: acc) ?_
        have := hs
        simp only [List.length_cons] at this
        omega

theorem joinWith_splitSitesF :
    ∀ (n : Nat) (s acc : List Char), s.length ≤ n →
      joinWith sitesSep (splitSitesF (n + 1) s acc) = acc.reverse ++ s := by
  intro n
  induction n with
  | zero =>
    intro s acc hs
    have : s = [] := List.length_eq_zero.mp (Nat.le_zero.mp hs)
    subst this
    simp [splitSitesF, joinWith]
  | succ n ih =>
    intro s acc hs
    cases s with
    | nil => simp [splitSitesF, joinWith]
    | cons c cs =>
      rw [splitSitesF]
      by_cases hp : sitesSep.isPrefixOf (c :: cs) = true
      · rw [if_pos hp]
        have hlen : (cs.drop 6).length ≤ n := by
          simp only [List.length_drop]
          have : cs.length ≤ n := by
            have := hs
            simp only [List.length_cons] at this
            omega
          omega
        obtain ⟨l, ls, hl⟩ := List.exists_cons_of_ne_nil
          (splitSitesF_ne_nil n (cs.drop 6) [] hlen)
        rw [hl]
        show acc.reverse ++ sitesSep ++ joinWith sitesSep (l :: ls)
          = acc.reverse ++ c :: cs
        rw [← hl, ih (cs.drop 6) [] hlen]
        obtain ⟨t, ht⟩ := (isPrefixOf_eq_append sitesSep (c :: cs)).mp hp
        have ht6 : t = cs.drop 6 := by
          have := congrArg (List.drop 7) ht
          rw [show (7 : Nat) = sitesSep.length from rfl] at this
          rw [List.drop_left] at this
          exact this.symm
        simp only [List.reverse_nil, List.nil_append]
        rw [← ht6, List.append_assoc, ← ht]
      · rw [if_neg hp, ih cs (c :: acc)
          (by have := hs; simp only [List.length_cons] at this; omega)]
        simp

/-- Errors thrown by sta-mountpoint.js: the descriptive 'Mountpoint is not
in the expected format.' error, the JS TypeError raised by reading 'split'
of the undefined sitesParts[1], and the run-level rejections. -/
inductive MpError
  | notExpectedFormat
  | jsTypeError
  | invalidRequestedType
  | googleNotSupported
  | dropboxNotSupported
  | githubNotSupported
  | mountpointNotSupported
  | typeMismatch
deriving DecidableEq, Repr

/-- mountpointData object: host always, site and path when computed. -/
structure MpData where
  host : List Char
  site : Option (List Char)
  path : Option (List Char)
deriving DecidableEq, Repr

/-- core.setOutput events of sta-mountpoint's run(), in call order. -/
inductive MpOutput
  | mountpointOut (v : List Char)
  | typeOut (v : List Char)
  | dataOut (d : MpData)
deriving DecidableEq, Repr

/-- Result of sta-mountpoint's run(): outputs emitted before any failure,
and the error caught at the outer boundary, if any. -/
structure MpResult where
  outputs : List MpOutput
  err : Option MpError
deriving DecidableEq, Repr

/-- Sharepoint branch of getMountpointData (lines 27-37): split the
pathname on '/sites/', destructure sitesParts[1].split('/') into site and
pathParts, join pathParts back with '/', extend the path when exactly two
'/sites/' markers occurred, and reject when host, site or path is empty.
When the pathname holds no '/sites/' at all, sitesParts[1] is undefined
and reading .split on it raises a TypeError. -/
def sharepointData (host pathname : List Char) : Except MpError MpData :=
  match splitSites pathname with
  | p0 :: p1 :: rest =>
    let comps := splitChar '/' p1
    let site := comps.headD []
    let pathParts := comps.tail
    let path0 := joinWith ['/'] pathParts
    let path1 :=
      if (p0 :: p1 :: rest).length = 3 then path0 ++ sitesSep ++ rest.headD []
      else path0
    if host.isEmpty || site.isEmpty || path1.isEmpty then
      Except.error MpError.notExpectedFormat
    else Except.ok ⟨host, some site, some path1⟩
  | _ => Except.error MpError.jsTypeError

/-- getMountpointData from sta-mountpoint.js, on the parsed URL parts. -/
def getMountpointData (host pathname mtype : List Char) :
    Except MpError MpData :=
  if mtype == "sharepoint".toList then sharepointData host pathname
  else if mtype == "crosswalk".toList then
    Except.ok ⟨host, none, some (pathname.drop 1)⟩
  else Except.ok ⟨host, none, none⟩

/-- Case-insensitive substring test, the regex /needle/i on the raw
mountpoint string (needle all lowercase). -/
def containsCI (hay needle : List Char) : Bool :=
  subList needle (jsToLower hay)

/-- Tail of run() after the mountpoint type was detected: mismatch check,
then the three outputs, with getMountpointData's failure caught after the
first two outputs were already emitted. -/
def mountpointFinish (desired rootEntry host pathname mtype : List Char) :
    MpResult :=
  if (mtype == desired) = false then ⟨[], some MpError.typeMismatch⟩
  else
    let outs := [MpOutput.mountpointOut rootEntry, MpOutput.typeOut mtype]
    match getMountpointData host pathname mtype with
    | Except.ok d => ⟨outs ++ [MpOutput.dataOut d], none⟩
    | Except.error e => ⟨outs, some e⟩

/-- run() of sta-mountpoint.js: validate the requested type, detect the
mountpoint type from the raw string by case-insensitive substring tests in
source order, reject the unsupported backing stores, then finish.  The URL
host and pathname are the parsed components of the mountpoint string. -/
def mountpointRun (desired rootEntry host pathname : List Char) : MpResult :=
  if (desired == "sharepoint".toList || desired == "crosswalk".toList)
      = false then
    ⟨[], some MpError.invalidRequestedType⟩
  else if containsCI rootEntry "sharepoint".toList = true then
    mountpointFinish desired rootEntry host pathname "sharepoint".toList
  else if containsCI rootEntry "adobeaemcloud".toList = true then
    mountpointFinish desired rootEntry host pathname "crosswalk".toList
  else if containsCI rootEntry "drive.google.com".toList = true then
    ⟨[], some MpError.googleNotSupported⟩
  else if containsCI rootEntry "dropbox".toList = true then
    ⟨[], some MpError.dropboxNotSupported⟩
  else if containsCI rootEntry "github.com".toList = true then
    ⟨[], some MpError.githubNotSupported⟩
  else ⟨[], some MpError.mountpointNotSupported⟩

theorem sharepointData_err (host pathname : List Char) (e : MpError)
    (h : sharepointData host pathname = Except.error e) :
    e = MpError.notExpectedFormat ∨ e = MpError.jsTypeError := by
  unfold sharepointData at h
  rcases hsp : splitSites pathname with _ | ⟨p0, _ | ⟨p1, rest⟩⟩ <;>
    rw [hsp] at h
  · right; cases h; rfl
  · right; cases h; rfl
  · dsimp only at h
    split at h <;> try split at h
    all_goals cases h
    all_goals left
    all_goals rfl

theorem sharepointData_ok_sites (host pathname : List Char) (d : MpData)
    (h : sharepointData host pathname = Except.ok d) :
    ∃ a name b, pathname = a ++ sitesSep ++ name ++ '/' :: b ∧
      name ≠ [] ∧ '/' ∉ name := by
  unfold sharepointData at h
  rcases hsp : splitSites pathname with _ | ⟨p0, _ | ⟨p1, rest⟩⟩ <;>
    rw [hsp] at h
  · cases h
  · cases h
  · dsimp only at h
    have h1 : joinWith sitesSep (splitSites pathname) = pathname := by
      have := joinWith_splitSitesF pathname.length pathname [] (le_refl _)
      simpa [splitSites] using this
    rw [hsp] at h1
    have h2 : joinWith sitesSep (p0 :: p1 :: rest)
        = p0 ++ sitesSep ++ joinWith sitesSep (p1 :: rest) := rfl
    have hjoin : pathname = p0 ++ sitesSep ++ joinWith sitesSep (p1 :: rest) := by
      rw [← h1]
      exact h2
    obtain ⟨site, pp, hc⟩ := List.exists_cons_of_ne_nil
      (splitCharGo_ne_nil '/' p1 [])
    have hcs : splitChar '/' p1 = site :: pp := hc
    have hp1 : joinWith ['/'] (site :: pp) = p1 := by
      have := joinWith_splitCharGo '/' p1 []
      rw [hc] at this
      simpa using this
    have hfree : '/' ∉ site := by
      have := splitCharGo_head_no_sep '/' p1 [] (by simp)
      rw [hc] at this
      simpa using this
    obtain ⟨R, hR⟩ : ∃ R, joinWith sitesSep (p1 :: rest) = p1 ++ R := by
      cases rest with
      | nil => exact ⟨[], by simp [joinWith]⟩
      | cons r rs =>
        refine ⟨sitesSep ++ joinWith sitesSep (r :: rs), ?_⟩
        show p1 ++ sitesSep ++ joinWith sitesSep (r :: rs) = _
        rw [List.append_assoc]
    have hpath : pathname = p0 ++ sitesSep ++ (p1 ++ R) := by rw [hjoin, hR]
    rw [hcs] at h
    simp only [List.headD_cons, List.tail_cons] at h
    by_cases hlen : (p0 :: p1 :: rest).length = 3
    · rw [if_pos hlen] at h
      by_cases hcond : (host.isEmpty || site.isEmpty ||
          (joinWith ['/'] pp ++ sitesSep ++ rest.headD []).isEmpty) = true
      · rw [if_pos hcond] at h; cases h
      · rw [if_neg hcond] at h
        simp only [Bool.or_eq_true, not_or] at hcond
        have hsite : site ≠ [] := by
          intro hnil
          exact hcond.1.2 (by simp [hnil])
        cases pp with
        | nil =>
          have hr1 : rest.length = 1 := by
            simp only [List.length_cons] at hlen
            omega
          obtain ⟨p2, hp2⟩ := List.length_eq_one.mp hr1
          subst hp2
          have hps : site = p1 := hp1
          subst hps
          refine ⟨p0, site, 's' :: 'i' :: 't' :: 'e' :: 's' :: '/' :: p2,
            ?_, hsite, hfree⟩
          rw [hjoin]
          show p0 ++ sitesSep ++ (site ++ sitesSep ++ p2) = _
          simp [sitesSep, List.append_assoc]
        | cons q qs =>
          have hp1' : p1 = site ++ '/' :: joinWith ['/'] (q :: qs) := by
            rw [← hp1]
            show site ++ ['/'] ++ joinWith ['/'] (q :: qs) = _
            simp [List.append_assoc]
          refine ⟨p0, site, joinWith ['/'] (q :: qs) ++ R, ?_, hsite, hfree⟩
          rw [hpath, hp1']
          simp [List.append_assoc]
    · rw [if_neg hlen] at h
      by_cases hcond : (host.isEmpty || site.isEmpty ||
          (joinWith ['/'] pp).isEmpty) = true
      · rw [if_pos hcond] at h; cases h
      · rw [if_neg hcond] at h
        simp only [Bool.or_eq_true, not_or] at hcond
        have hsite : site ≠ [] := by
          intro hnil
          exact hcond.1.2 (by simp [hnil])
        cases pp with
        | nil => exact absurd rfl hcond.2
        | cons q qs =>
          have hp1' : p1 = site ++ '/' :: joinWith ['/'] (q :: qs) := by
            rw [← hp1]
            show site ++ ['/'] ++ joinWith ['/'] (q :: qs) = _
            simp [List.append_assoc]
          refine ⟨p0, site, joinWith ['/'] (q :: qs) ++ R, ?_, hsite, hfree⟩
          rw [hpath, hp1']
          simp [List.append_assoc]

/-- C2 counterexample: for the mountpoint URL
https://foo.sharepoint.com/personal/x — it contains 'sharepoint' and its
path /personal/x has no '/sites/<name>/' segment — the stage does fail,
but with the JS TypeError from reading sitesParts[1].split, not the
descriptive 'Mountpoint is not in the expected format.' error, and the
'mountpoint' and 'type' outputs were already emitted before the failure,
so partial output data is present. -/
theorem sharepoint_missing_sites_counterexample :
    (mountpointRun "sharepoint".toList
      "https://foo.sharepoint.com/personal/x".toList
      "foo.sharepoint.com".toList "/personal/x".toList).err
      = some MpError.jsTypeError ∧
    (mountpointRun "sharepoint".toList
      "https://foo.sharepoint.com/personal/x".toList
      "foo.sharepoint.com".toList "/personal/x".toList).err
      ≠ some MpError.notExpectedFormat ∧
    (mountpointRun "sharepoint".toList
      "https://foo.sharepoint.com/personal/x".toList
      "foo.sharepoint.com".toList "/personal/x".toList).outputs
      = [MpOutput.mountpointOut
          "https://foo.sharepoint.com/personal/x".toList,
         MpOutput.typeOut "sharepoint".toList] := by
  refine ⟨?_, ?_, ?_⟩ <;> decide

/-- C2 amended: for every sharepoint-typed mountpoint URL whose path lacks
a '/sites/<name>/' segment (nonempty, slash-free name), the stage fails —
the error is the descriptive format error when the path still contains
'/sites/', and a JS TypeError when it does not — and the 'data' output is
never emitted; however the 'mountpoint' and 'type' outputs have already
been emitted before the failure. -/
theorem sharepoint_missing_sites_fails (rootEntry host pathname : List Char)
    (hsp : containsCI rootEntry "sharepoint".toList = true)
    (hlack : ∀ a name b, name ≠ [] → '/' ∉ name →
      pathname ≠ a ++ sitesSep ++ name ++ '/' :: b) :
    ((mountpointRun "sharepoint".toList rootEntry host pathname).err
        = some MpError.notExpectedFormat ∨
      (mountpointRun "sharepoint".toList rootEntry host pathname).err
        = some MpError.jsTypeError) ∧
    (mountpointRun "sharepoint".toList rootEntry host pathname).outputs
      = [MpOutput.mountpointOut rootEntry,
         MpOutput.typeOut "sharepoint".toList] ∧
    ∀ d, MpOutput.dataOut d ∉
      (mountpointRun "sharepoint".toList rootEntry host pathname).outputs := by
  have hrun : mountpointRun "sharepoint".toList rootEntry host pathname
      = mountpointFinish "sharepoint".toList rootEntry host pathname
          "sharepoint".toList := by
    simp only [mountpointRun]
    rw [hsp]
    simp
  have hdata : getMountpointData host pathname "sharepoint".toList
      = sharepointData host pathname := by
    simp [getMountpointData]
  have hfin : mountpointFinish "sharepoint".toList rootEntry host pathname
      "sharepoint".toList
      = (match sharepointData host pathname with
         | Except.ok d =>
            MpResult.mk
              ([MpOutput.mountpointOut rootEntry,
                MpOutput.typeOut "sharepoint".toList] ++ [MpOutput.dataOut d])
              none
         | Except.error e =>
            MpResult.mk
              [MpOutput.mountpointOut rootEntry,
               MpOutput.typeOut "sharepoint".toList] (some e)) := by
    simp only [mountpointFinish]
    rw [hdata]
    simp
  cases hd : sharepointData host pathname with
  | ok d =>
    exfalso
    obtain ⟨a, name, b, heq, hname, hfree⟩ :=
      sharepointData_ok_sites host pathname d hd
    exact hlack a name b hname hfree heq
  | error e =>
    rw [hrun, hfin, hd]
    rcases sharepointData_err host pathname e hd with he | he <;>
      subst he <;> simp

/-- C2 witness: the amended claim applied to the counterexample URL, whose
path /personal/x contains no '/sites/' at all. -/
theorem sharepoint_missing_sites_fails_witness :
    ((mountpointRun "sharepoint".toList
        "https://foo.sharepoint.com/personal/x".toList
        "foo.sharepoint.com".toList "/personal/x".toList).err
        = some MpError.notExpectedFormat ∨
      (mountpointRun "sharepoint".toList
        "https://foo.sharepoint.com/personal/x".toList
        "foo.sharepoint.com".toList "/personal/x".toList).err
        = some MpError.jsTypeError) ∧
    (mountpointRun "sharepoint".toList
      "https://foo.sharepoint.com/personal/x".toList
      "foo.sharepoint.com".toList "/personal/x".toList).outputs
      = [MpOutput.mountpointOut
          "https://foo.sharepoint.com/personal/x".toList,
         MpOutput.typeOut "sharepoint".toList] ∧
    ∀ d, MpOutput.dataOut d ∉
      (mountpointRun "sharepoint".toList
        "https://foo.sharepoint.com/personal/x".toList
        "foo.sharepoint.com".toList "/personal/x".toList).outputs :=
  sharepoint_missing_sites_fails
    "https://foo.sharepoint.com/personal/x".toList
    "foo.sharepoint.com".toList "/personal/x".toList
    (by decide)
    (by
      intro a name b _ _ heq
      have hsub : subList sitesSep "/personal/x".toList = true := by
        rw [heq]
        have h1 := subList_of_append sitesSep a (name ++ '/' :: b)
        simpa [List.append_assoc] using h1
      exact absurd hsub (by decide))

end Sta
